import Mathlib

/-!
A verification development for a minimal in-memory arena allocator
(`src/src/main.rs`).  The allocator carves a fixed byte buffer into blocks
tagged with two bytes of inline metadata (free flag + 7-bit size, and an
8-bit back pointer).  We embed the buffer as a function from addresses to
byte values together with an explicit length, and each Rust method as a
Lean function over that state.
-/

deriving instance DecidableEq for Except

namespace Malloc

/-- `META_SIZE` from the source: bytes of metadata per block. -/
def META_SIZE : Nat := 2

/-- The `Meta` struct from the source: a decoded block view. -/
structure Meta where
  addr : Nat
  free : Bool
  size : Nat
  prev : Option Nat
  next : Option Nat
deriving DecidableEq, Repr

/-- The `Stack` struct: the byte buffer (`Vec<u8>` modelled as an index
function plus an explicit length; bytes are kept below 256 by writing
modulo 256, matching `u8` arithmetic) and the chunk size. -/
structure Stack where
  stack : Nat → Nat
  len : Nat
  chunk_size : Nat

/-- Point update of the buffer function (one `vec[i] = v` store).
Rust panics on an out-of-bounds store; all stores on the traces and
reachable states considered here are in bounds. -/
def upd (f : Nat → Nat) (i v : Nat) : Nat → Nat :=
  fun j => if j = i then v else f j

/-- `Stack::ceil`: round up to a multiple of `chunk_size`.  The source
computes `(size as f64 / chunk as f64).ceil() as usize * chunk`, which for
`chunk = 8` and any representable argument equals this integer formula. -/
def Stack.ceil (s : Stack) (n : Nat) : Nat :=
  ((n + s.chunk_size - 1) / s.chunk_size) * s.chunk_size

/-- `Stack::read_meta`: decode the metadata at `addr`.  Out-of-bounds
reads (which would panic in Rust) return byte 0 here; every read on the
states the theorems talk about is in bounds. -/
def Stack.read_meta (s : Stack) (addr : Nat) : Meta :=
  let first := s.stack addr
  let free := first % 2 == 1
  let size := first / 2
  let prevB := s.stack (addr + 1)
  let prev := if prevB < addr then some prevB else none
  let next0 := s.ceil (addr + META_SIZE + size)
  let next := if addr < next0 ∧ next0 < s.len then some next0 else none
  ⟨addr, free, size, prev, next⟩

/-- `Stack::write_meta`: `stack[addr] = (size as u8) << 1 | free as u8;`
then `stack[addr + 1] = prev.unwrap_or(0) as u8`.  The shifted size byte is
even, so the bit-or with the flag is addition. -/
def Stack.write_meta (s : Stack) (m : Meta) : Stack :=
  let b0 := (m.size % 256 * 2) % 256 + (if m.free then 1 else 0)
  let b1 := m.prev.getD 0 % 256
  { s with stack := upd (upd s.stack m.addr b0) (m.addr + 1) b1 }

/-- `Stack::new`: a zeroed buffer of `size` bytes, chunk size 8, with one
free block of size `size - META_SIZE` written at address 0.  (For
`size < META_SIZE` the Rust subtraction would panic; `Nat` subtraction
truncates to 0 instead.) -/
def Stack.new (size : Nat) : Stack :=
  Stack.write_meta ⟨fun _ => 0, size, 8⟩ ⟨0, true, size - META_SIZE, none, none⟩

/-- `Stack::find_free`: first-fit search along the derived `next` chain.
The Rust function recurses without a bound; every step strictly increases
`addr` while staying below `len`, so fuel `len + 1 - addr` (and a fortiori
`len + 1` from address 0) reproduces it exactly. -/
def Stack.find_free (s : Stack) (fuel : Nat) (size addr : Nat) : Option Meta :=
  match fuel with
  | 0 => none
  | fuel + 1 =>
    let meta := s.read_meta addr
    if meta.free = true ∧ size ≤ meta.size then some meta
    else
      match meta.next with
      | some next => s.find_free fuel size next
      | none => none

/-- `Stack::allocate`.  On error the Rust `?` returns before any write, so
the state comes back unchanged.  `limit - next_addr` underflows in Rust
(and the subsequent split write then indexes out of bounds, panicking) when
`next_addr > limit`; `Nat` subtraction yields 0, so such would-panic traces
take the no-split branch here instead. -/
def Stack.allocate (s : Stack) (size : Nat) : Except String Meta × Stack :=
  match s.find_free (s.len + 1) size 0 with
  | none => (.error "Not enough room in stack", s)
  | some m0 =>
    let m1 : Meta := { m0 with free := false, size := size }
    let limit := m1.next.getD s.len
    let next_addr := s.ceil (m1.addr + META_SIZE + m1.size)
    if s.chunk_size ≤ limit - next_addr then
      let s1 := s.write_meta ⟨next_addr, true, limit - next_addr - META_SIZE, some m1.addr, m1.next⟩
      let m2 : Meta := { m1 with next := some next_addr }
      (.ok m2, s1.write_meta m2)
    else
      (.ok m1, s.write_meta m1)

/-- The first step of `Stack::free` (lines 115-116 of the source): mark
the block free and normalise its size to `ceil(size) - META_SIZE`
(truncated subtraction; Rust would panic for `size = 0`). -/
def freeSize (s : Stack) (m : Meta) : Meta :=
  { m with free := true, size := s.ceil m.size - META_SIZE }

/-- The backward-coalescing step of `Stack::free` (lines 118-126 of the
source): if the passed block records a predecessor and that predecessor
decodes as free, absorb the block into it. -/
def Stack.backMerge (s : Stack) (m1 : Meta) : Meta :=
  match m1.prev with
  | some p =>
    if (s.read_meta p).free = true then
      { m1 with size := m1.size + (m1.addr - (s.read_meta p).addr), addr := (s.read_meta p).addr, prev := (s.read_meta p).prev }
    else m1
  | none => m1

/-- The forward absorption of a free successor (line 132 of the source):
`meta.size += META_SIZE + next.size`. -/
def fwdAbsorb (m2 nx : Meta) : Meta := { m2 with size := m2.size + META_SIZE + nx.size }

/-- Updating a decoded block's `prev` field before re-writing it (lines
137 and 142 of the source). -/
def rePrev (t : Meta) (a : Nat) : Meta := { t with prev := some a }

/-- `Stack::free`.  All reads happen before any write in the source, so
every `read_meta` here is on the incoming state.  The value written as
`m2` in the source is `s.backMerge (freeSize s m)`, and `m3` is
`fwdAbsorb` of it with the decoded successor. -/
def Stack.free (s : Stack) (m : Meta) : Meta × Stack :=
  match (s.backMerge (freeSize s m)).next with
  | some x =>
    if (s.read_meta x).free = true then
      (fwdAbsorb (s.backMerge (freeSize s m)) (s.read_meta x),
        (match (s.read_meta x).next with
          | some y => s.write_meta (rePrev (s.read_meta y) (fwdAbsorb (s.backMerge (freeSize s m)) (s.read_meta x)).addr)
          | none => s).write_meta (fwdAbsorb (s.backMerge (freeSize s m)) (s.read_meta x)))
    else
      (s.backMerge (freeSize s m),
        (s.write_meta (rePrev (s.read_meta x) (s.backMerge (freeSize s m)).addr)).write_meta (s.backMerge (freeSize s m)))
  | none => (s.backMerge (freeSize s m), s.write_meta (s.backMerge (freeSize s m)))

/-- `Stack::collect`: enumerate the chain from address 0.  Fueled like
`find_free`; fuel `len + 1` reproduces the unbounded Rust loop. -/
def Stack.collectAux (s : Stack) (fuel : Nat) (addr : Nat) : List Meta :=
  match fuel with
  | 0 => []
  | fuel + 1 =>
    let m := s.read_meta addr
    match m.next with
    | some x => m :: s.collectAux fuel x
    | none => [m]

/-- `Stack::collect` applied from offset 0. -/
def Stack.collect (s : Stack) : List Meta :=
  s.collectAux (s.len + 1) 0

/-- Pure chunk-8 rounding (the value of `Stack.ceil` whenever
`chunk_size = 8`, which `Stack.new` always sets). -/
def ceil8 (n : Nat) : Nat := (n + 7) / 8 * 8

/-- The `next_addr` local of `allocate`: chunk-rounded end of an
allocation of `n` bytes at the found block `fm`. -/
def nextAddr (s : Stack) (fm : Meta) (n : Nat) : Nat :=
  s.ceil (fm.addr + META_SIZE + n)

/-- The `limit` local of `allocate`: the found block's successor address,
or the end of the arena. -/
def limitOf (s : Stack) (fm : Meta) : Nat := fm.next.getD s.len

/-- The new free block `allocate` writes in the split case. -/
def splitBlock (s : Stack) (fm : Meta) (n : Nat) : Meta :=
  ⟨nextAddr s fm n, true, limitOf s fm - nextAddr s fm n - META_SIZE, some fm.addr, fm.next⟩

/-- The block `allocate` returns in the split case. -/
def allocSplit (s : Stack) (fm : Meta) (n : Nat) : Meta :=
  { fm with free := false, size := n, next := some (nextAddr s fm n) }

/-- The block `allocate` returns in the no-split case. -/
def allocPlain (fm : Meta) (n : Nat) : Meta := { fm with free := false, size := n }

/-- Properties of every `Meta` value a caller can legitimately pass to
`free`: every block returned by `allocate` satisfies them (lemma
`allocate_snapOK`), so the reachability relation below, which allows
`free` on any such value, over-approximates every valid usage history. -/
def SnapOK (cap : Nat) (m : Meta) : Prop :=
  m.addr % 8 = 0 ∧ m.addr + META_SIZE + m.size ≤ cap ∧
  (∀ p, m.prev = some p → p < m.addr ∧ p % 8 = 0) ∧
  (∀ x, m.next = some x → x % 8 = 0 ∧ x < cap ∧ ceil8 (m.addr + META_SIZE + m.size) ≤ x)

/-- Arena states reachable from `Stack.new cap` by `allocate` calls and
`free` calls on blocks a correct caller may hold. -/
inductive Reachable : Nat → Stack → Prop where
  | init (cap : Nat) : Reachable cap (Stack.new cap)
  | alloc {cap s n m s'} : Reachable cap s → Stack.allocate s n = (.ok m, s') →
      Reachable cap s'
  | dealloc {cap s m} : Reachable cap s → SnapOK cap m →
      Reachable cap (Stack.free s m).2

/-- One link of the enumerated chain: the derived `next` is the successor
block's address and the payload (metadata + size) does not overlap it. -/
def pairOKb (b c : Meta) : Bool :=
  (b.next == some c.addr) && Nat.ble (b.addr + META_SIZE + b.size) c.addr

/-- The whole chain is linked (and the last block has no derived next). -/
def chainLinked : List Meta → Bool
  | [] => false
  | [b] => b.next == none
  | b :: c :: r => pairOKb b c && chainLinked (c :: r)

/-- Chunk-aligned end of the last block's region. -/
def lastEnd (s : Stack) : List Meta → Nat
  | [] => 0
  | [b] => s.ceil (b.addr + META_SIZE + b.size)
  | _ :: r => lastEnd s r

/-- Coverage: the enumerated chain starts at address 0, is contiguous and
non-overlapping (each block's derived next equals the next block's
address, payloads don't cross it), and the last block's chunk-aligned
region ends exactly at `cap`. -/
abbrev coverage (cap : Nat) (s : Stack) : Prop :=
  s.collect.head?.map Meta.addr = some 0 ∧ chainLinked s.collect = true ∧
    lastEnd s s.collect = cap

/-- The buffer invariant driving all reachability proofs: every byte is a
`u8` value, sizes decoded at any chunk-aligned address stay inside the
arena, and stored predecessor bytes are chunk-aligned. -/
structure Inv (cap : Nat) (s : Stack) : Prop where
  len_eq : s.len = cap
  chunk : s.chunk_size = 8
  cap8 : cap % 8 = 0
  bytes : ∀ j, s.stack j < 256
  bound : ∀ q, q % 8 = 0 → q < cap → q + META_SIZE + (s.read_meta q).size ≤ cap
  prevAl : ∀ q, q % 8 = 0 → q < cap → ∀ p, (s.read_meta q).prev = some p → p % 8 = 0

/-- What `Inv` yields about the block `find_free` returns. -/
structure FoundOK (cap : Nat) (s : Stack) (n : Nat) (fm : Meta) : Prop where
  al : fm.addr % 8 = 0
  lt : fm.addr < cap
  fr : fm.free = true
  nle : n ≤ fm.size
  s127 : fm.size ≤ 127
  bnd : fm.addr + META_SIZE + fm.size ≤ cap
  pv : ∀ p, fm.prev = some p → p < fm.addr ∧ p % 8 = 0
  nx : ∀ x, fm.next = some x →
    x = ceil8 (fm.addr + META_SIZE + fm.size) ∧ x < cap ∧ x % 8 = 0
  nxnone : fm.next = none → cap ≤ ceil8 (fm.addr + META_SIZE + fm.size)

/-! ### Concrete executions used by the scenario and bug theorems -/

/-- The `main` demo state: `Stack::new(64)`. -/
def d0 : Stack := Stack.new 64

/-- `stack.allocate(12)` of the demo. -/
def dA : Except String Meta × Stack := d0.allocate 12

/-- `stack.allocate(6)` of the demo. -/
def dB : Except String Meta × Stack := dA.2.allocate 6

/-- `stack.free(a)` of the demo (`a` is the block `allocate(12)` returned,
as established by `claim_C1`). -/
def dFa : Meta × Stack := dB.2.free ⟨0, false, 12, none, some 16⟩

/-- `stack.free(b)` of the demo. -/
def dFb : Meta × Stack := dFa.2.free ⟨16, false, 6, some 0, some 24⟩

/-- Trace for the no-adjacent-free bug: allocate three 6-byte blocks
`x`, `a`, `b`, then free them in order `x`, `a`, `b`. -/
def eX : Except String Meta × Stack := (Stack.new 64).allocate 6

/-- Second 6-byte allocation of the bug trace. -/
def eA : Except String Meta × Stack := eX.2.allocate 6

/-- Third 6-byte allocation of the bug trace. -/
def eB : Except String Meta × Stack := eA.2.allocate 6

/-- Free `x`, then `a` (which merges backward into address 0). -/
def eFx : Meta × Stack := eB.2.free ⟨0, false, 6, none, some 8⟩

/-- Free `a` after `x`. -/
def eFa : Meta × Stack := eFx.2.free ⟨8, false, 6, some 0, some 16⟩

/-- Free `b`: its snapshot `prev` (address 8) now reads a stale used
header, so backward coalescing is skipped. -/
def eFb : Meta × Stack := eFa.2.free ⟨16, false, 6, some 8, some 24⟩

/-- Round-trip bug trace: `allocate(8)` on a fresh 64-byte arena, then
immediately free the returned block. -/
def fA : Except String Meta × Stack := (Stack.new 64).allocate 8

/-- The immediate free of the `allocate(8)` result. -/
def fF : Meta × Stack := fA.2.free ⟨0, false, 8, none, some 16⟩

/-! ### Theorems -/

theorem read_meta_addr (s : Stack) (a : Nat) : (s.read_meta a).addr = a := rfl

theorem read_meta_free (s : Stack) (a : Nat) :
    (s.read_meta a).free = (s.stack a % 2 == 1) := rfl

theorem read_meta_size (s : Stack) (a : Nat) :
    (s.read_meta a).size = s.stack a / 2 := rfl

theorem read_meta_prev (s : Stack) (a : Nat) :
    (s.read_meta a).prev =
      if s.stack (a + 1) < a then some (s.stack (a + 1)) else none := rfl

theorem read_meta_next (s : Stack) (a : Nat) :
    (s.read_meta a).next =
      if a < s.ceil (a + META_SIZE + s.stack a / 2) ∧
          s.ceil (a + META_SIZE + s.stack a / 2) < s.len then
        some (s.ceil (a + META_SIZE + s.stack a / 2))
      else none := rfl

theorem read_meta_next_some {s : Stack} {a x : Nat}
    (h : (s.read_meta a).next = some x) : a < x ∧ x < s.len := by
  rw [read_meta_next] at h
  by_cases hc : a < s.ceil (a + META_SIZE + s.stack a / 2) ∧
      s.ceil (a + META_SIZE + s.stack a / 2) < s.len
  · rw [if_pos hc] at h
    cases h
    exact hc
  · rw [if_neg hc] at h
    exact absurd h (by simp)

theorem read_prev_lt {s : Stack} {a p : Nat} (h : (s.read_meta a).prev = some p) :
    p < a := by
  rw [read_meta_prev] at h
  by_cases hc : s.stack (a + 1) < a
  · rw [if_pos hc] at h
    cases h
    exact hc
  · rw [if_neg hc] at h
    exact absurd h (by simp)

theorem read_next_form {s : Stack} {a x : Nat} (h : (s.read_meta a).next = some x) :
    x = s.ceil (a + META_SIZE + (s.read_meta a).size) := by
  rw [read_meta_next] at h
  by_cases hc : a < s.ceil (a + META_SIZE + s.stack a / 2) ∧
      s.ceil (a + META_SIZE + s.stack a / 2) < s.len
  · rw [if_pos hc] at h
    cases h
    rfl
  · rw [if_neg hc] at h
    exact absurd h (by simp)

theorem ceil_eq_ceil8 {s : Stack} (h : s.chunk_size = 8) (n : Nat) :
    s.ceil n = ceil8 n := by
  unfold Stack.ceil ceil8
  rw [h]
  omega

theorem le_ceil8 (n : Nat) : n ≤ ceil8 n := by unfold ceil8; omega

theorem ceil8_lt (n : Nat) : ceil8 n < n + 8 := by unfold ceil8; omega

theorem ceil8_mono {n m : Nat} (h : n ≤ m) : ceil8 n ≤ ceil8 m := by
  unfold ceil8; omega

theorem ceil8_mod (n : Nat) : ceil8 n % 8 = 0 := by unfold ceil8; omega

theorem ceil8_of_mod {n : Nat} (h : n % 8 = 0) : ceil8 n = n := by
  unfold ceil8; omega

theorem write_meta_len (s : Stack) (m : Meta) : (s.write_meta m).len = s.len := rfl

theorem write_meta_chunk (s : Stack) (m : Meta) :
    (s.write_meta m).chunk_size = s.chunk_size := rfl

theorem write_meta_stack0 (s : Stack) (m : Meta) :
    (s.write_meta m).stack m.addr =
      (m.size % 256 * 2) % 256 + (if m.free then 1 else 0) := by
  simp [Stack.write_meta, upd]

theorem write_meta_stack1 (s : Stack) (m : Meta) :
    (s.write_meta m).stack (m.addr + 1) = m.prev.getD 0 % 256 := by
  simp [Stack.write_meta, upd]

theorem write_meta_stack_ne {s : Stack} {m : Meta} {j : Nat}
    (h0 : j ≠ m.addr) (h1 : j ≠ m.addr + 1) : (s.write_meta m).stack j = s.stack j := by
  simp [Stack.write_meta, upd, h0, h1]

theorem read_meta_congr {s' s : Stack} {a : Nat} (h0 : s'.stack a = s.stack a)
    (h1 : s'.stack (a + 1) = s.stack (a + 1)) (hlen : s'.len = s.len)
    (hch : s'.chunk_size = s.chunk_size) : s'.read_meta a = s.read_meta a := by
  simp only [Stack.read_meta, Stack.ceil, h0, h1, hlen, hch]

theorem write_read_size (s : Stack) (m : Meta) :
    ((s.write_meta m).read_meta m.addr).size = m.size % 128 := by
  have hb : (m.size % 256 * 2) % 256 = m.size % 128 * 2 := by
    have h2 : (256 : Nat) = 128 * 2 := by norm_num
    rw [h2, Nat.mul_mod_mul_right, Nat.mod_mod_of_dvd _ (by norm_num : (128:Nat) ∣ 256)]
  rw [read_meta_size, write_meta_stack0, hb]
  cases m.free <;> simp <;> omega

theorem beq_even (k : Nat) : (k * 2 % 2 == 1) = false := by
  have h : k * 2 % 2 = 0 := by omega
  rw [h]; rfl

theorem beq_odd (k : Nat) : ((k * 2 + 1) % 2 == 1) = true := by
  have h : (k * 2 + 1) % 2 = 1 := by omega
  rw [h]; rfl

theorem write_read_free (s : Stack) (m : Meta) :
    ((s.write_meta m).read_meta m.addr).free = m.free := by
  have hb : (m.size % 256 * 2) % 256 = m.size % 128 * 2 := by
    have h2 : (256 : Nat) = 128 * 2 := by norm_num
    rw [h2, Nat.mul_mod_mul_right, Nat.mod_mod_of_dvd _ (by norm_num : (128:Nat) ∣ 256)]
  rw [read_meta_free, write_meta_stack0, hb]
  cases hf : m.free
  · rw [if_neg Bool.false_ne_true, Nat.add_zero]
    exact beq_even _
  · rw [if_pos rfl]
    exact beq_odd _

theorem find_free_succ (s : Stack) (f n a : Nat) :
    s.find_free (f + 1) n a =
      if (s.read_meta a).free = true ∧ n ≤ (s.read_meta a).size then some (s.read_meta a)
      else
        match (s.read_meta a).next with
        | some x => s.find_free f n x
        | none => none := rfl

theorem collectAux_succ (s : Stack) (f a : Nat) :
    s.collectAux (f + 1) a =
      match (s.read_meta a).next with
      | some x => s.read_meta a :: s.collectAux f x
      | none => [s.read_meta a] := rfl

theorem find_free_stable (s : Stack) (n : Nat) :
    ∀ f g a, s.len - a < f → s.len - a < g → s.find_free f n a = s.find_free g n a := by
  intro f
  induction f with
  | zero => intro g a h1 _; omega
  | succ f ih =>
    intro g a h1 h2
    cases g with
    | zero => omega
    | succ g =>
      rw [find_free_succ, find_free_succ]
      by_cases hc : (s.read_meta a).free = true ∧ n ≤ (s.read_meta a).size
      · rw [if_pos hc, if_pos hc]
      · rw [if_neg hc, if_neg hc]
        cases hx : (s.read_meta a).next with
        | none => rfl
        | some x =>
          have hb := read_meta_next_some hx
          exact ih g x (by omega) (by omega)

theorem collectAux_stable (s : Stack) :
    ∀ f g a, s.len - a < f → s.len - a < g → s.collectAux f a = s.collectAux g a := by
  intro f
  induction f with
  | zero => intro g a h1 _; omega
  | succ f ih =>
    intro g a h1 h2
    cases g with
    | zero => omega
    | succ g =>
      rw [collectAux_succ, collectAux_succ]
      cases hx : (s.read_meta a).next with
      | none => rfl
      | some x =>
        have hb := read_meta_next_some hx
        show s.read_meta a :: s.collectAux f x = s.read_meta a :: s.collectAux g x
        rw [ih g x (by omega) (by omega)]

theorem collectAux_mem {s : Stack} :
    ∀ {f a b}, b ∈ s.collectAux f a → a ≤ b.addr ∧ b = s.read_meta b.addr := by
  intro f
  induction f with
  | zero => intro a b h; simp [Stack.collectAux] at h
  | succ f ih =>
    intro a b h
    rw [collectAux_succ] at h
    cases hx : (s.read_meta a).next with
    | none =>
      rw [hx] at h
      simp at h
      subst h
      exact ⟨Nat.le_refl a, rfl⟩
    | some x =>
      rw [hx] at h
      simp at h
      rcases h with h | h
      · subst h; exact ⟨Nat.le_refl a, rfl⟩
      · have hb := read_meta_next_some hx
        have := ih h
        exact ⟨by omega, this.2⟩

theorem find_free_mem {s : Stack} :
    ∀ {f n a m}, s.find_free f n a = some m →
      m ∈ s.collectAux f a ∧ m.free = true ∧ n ≤ m.size := by
  intro f
  induction f with
  | zero => intro n a m h; simp [Stack.find_free] at h
  | succ f ih =>
    intro n a m h
    rw [find_free_succ] at h
    rw [collectAux_succ]
    by_cases hc : (s.read_meta a).free = true ∧ n ≤ (s.read_meta a).size
    · rw [if_pos hc] at h
      cases h
      cases hx : (s.read_meta a).next with
      | none => exact ⟨List.mem_singleton_self _, hc⟩
      | some x => exact ⟨List.mem_cons_self _ _, hc⟩
    · rw [if_neg hc] at h
      cases hx : (s.read_meta a).next with
      | none =>
        rw [hx] at h
        exact Option.noConfusion h
      | some x =>
        rw [hx] at h
        have h' : s.find_free f n x = some m := h
        have := ih h'
        exact ⟨List.mem_cons_of_mem _ this.1, this.2⟩

theorem find_free_min {s : Stack} :
    ∀ {f n a m}, s.find_free f n a = some m →
      ∀ b ∈ s.collectAux f a, b.free = true → n ≤ b.size → m.addr ≤ b.addr := by
  intro f
  induction f with
  | zero => intro n a m h; simp [Stack.find_free] at h
  | succ f ih =>
    intro n a m h b hb hfree hsize
    rw [find_free_succ] at h
    by_cases hc : (s.read_meta a).free = true ∧ n ≤ (s.read_meta a).size
    · rw [if_pos hc] at h
      cases h
      have := collectAux_mem hb
      calc (s.read_meta a).addr = a := read_meta_addr s a
        _ ≤ b.addr := this.1
    · rw [if_neg hc] at h
      rw [collectAux_succ] at hb
      cases hx : (s.read_meta a).next with
      | none =>
        rw [hx] at h
        exact Option.noConfusion h
      | some x =>
        rw [hx] at h
        rw [hx] at hb
        have h' : s.find_free f n x = some m := h
        have hb' : b = s.read_meta a ∨ b ∈ s.collectAux f x := by
          simpa using hb
        rcases hb' with hb' | hb'
        · exact absurd ⟨by rw [hb'] at hfree; exact hfree,
            by rw [hb'] at hsize; exact hsize⟩ hc
        · exact ih h' b hb' hfree hsize

theorem find_free_none {s : Stack} :
    ∀ {f n a}, s.find_free f n a = none ↔
      ∀ b ∈ s.collectAux f a, ¬(b.free = true ∧ n ≤ b.size) := by
  intro f
  induction f with
  | zero => intro n a; simp [Stack.find_free, Stack.collectAux]
  | succ f ih =>
    intro n a
    rw [find_free_succ, collectAux_succ]
    by_cases hc : (s.read_meta a).free = true ∧ n ≤ (s.read_meta a).size
    · rw [if_pos hc]
      constructor
      · intro h; cases h
      · intro h
        exfalso
        cases hx : (s.read_meta a).next with
        | none =>
          rw [hx] at h
          exact h (s.read_meta a) (List.mem_singleton_self _) hc
        | some x =>
          rw [hx] at h
          exact h (s.read_meta a) (List.mem_cons_self _ _) hc
    · rw [if_neg hc]
      cases hx : (s.read_meta a).next with
      | none =>
        constructor
        · intro _ b hb
          have hb' : b = s.read_meta a := by simpa using hb
          rw [hb']
          exact hc
        · intro _; rfl
      | some x =>
        constructor
        · intro h b hb
          have hb' : b = s.read_meta a ∨ b ∈ s.collectAux f x := by simpa using hb
          rcases hb' with hb' | hb'
          · rw [hb']; exact hc
          · have h' : s.find_free f n x = none := h
            exact ih.mp h' b hb'
        · intro h
          show s.find_free f n x = none
          exact ih.mpr fun b hb => h b (List.mem_cons_of_mem _ hb)

theorem inv_write {cap : Nat} {s : Stack} {m : Meta} (hI : Inv cap s)
    (h8 : m.addr % 8 = 0) (hsz : m.addr + META_SIZE + m.size % 128 ≤ cap)
    (hpv : ∀ p, m.prev = some p → p % 8 = 0) : Inv cap (s.write_meta m) := by
  have hq1 : ∀ q : Nat, q % 8 = 0 → q ≠ m.addr →
      (s.write_meta m).read_meta q = s.read_meta q := by
    intro q hq8 hqa
    refine read_meta_congr ?_ ?_ rfl rfl
    · exact write_meta_stack_ne hqa (by omega)
    · exact write_meta_stack_ne (by omega) (by omega)
  refine ⟨(write_meta_len s m).trans hI.len_eq, (write_meta_chunk s m).trans hI.chunk,
    hI.cap8, ?_, ?_, ?_⟩
  · intro j
    by_cases hj0 : j = m.addr
    · rw [hj0, write_meta_stack0]
      have h1 : (m.size % 256 * 2) % 256 < 256 := by omega
      have h2 : (m.size % 256 * 2) % 256 % 2 = 0 := by omega
      cases m.free <;> simp <;> omega
    · by_cases hj1 : j = m.addr + 1
      · rw [hj1, write_meta_stack1]; omega
      · rw [write_meta_stack_ne hj0 hj1]; exact hI.bytes j
  · intro q hq8 hqlt
    by_cases hqa : q = m.addr
    · rw [hqa, write_read_size]
      exact hsz
    · rw [hq1 q hq8 hqa]
      exact hI.bound q hq8 hqlt
  · intro q hq8 hqlt p hp
    by_cases hqa : q = m.addr
    · rw [hqa, read_meta_prev, write_meta_stack1] at hp
      by_cases hc : m.prev.getD 0 % 256 < m.addr
      · rw [if_pos hc] at hp
        cases hp
        cases hpm : m.prev with
        | none => simp [hpm]
        | some p0 =>
          have := hpv p0 hpm
          simp only [hpm, Option.getD_some]
          omega
      · rw [if_neg hc] at hp
        exact absurd hp (by simp)
    · rw [hq1 q hq8 hqa] at hp
      exact hI.prevAl q hq8 hqlt p hp

theorem inv_new {cap : Nat} (h8 : cap % 8 = 0) (hpos : 0 < cap) :
    Inv cap (Stack.new cap) := by
  have base : Inv cap ⟨fun _ => 0, cap, 8⟩ := by
    refine ⟨rfl, rfl, h8, fun _ => by norm_num, ?_, ?_⟩
    · intro q hq8 hqlt
      rw [read_meta_size]
      show q + META_SIZE + 0 / 2 ≤ cap
      unfold META_SIZE
      omega
    · intro q hq8 hqlt p hp
      rw [read_meta_prev] at hp
      by_cases hc : (0 : Nat) < q
      · rw [if_pos hc] at hp
        cases hp
        rfl
      · rw [if_neg hc] at hp
        exact absurd hp (by simp)
  refine inv_write base (by norm_num) ?_ (fun p hp => by cases hp)
  show 0 + META_SIZE + (cap - META_SIZE) % 128 ≤ cap
  unfold META_SIZE
  omega

theorem collectAux_addr {s : Stack} (hch : s.chunk_size = 8) :
    ∀ {f a b}, b ∈ s.collectAux f a → a % 8 = 0 →
      b.addr % 8 = 0 ∧ (b.addr = a ∨ b.addr < s.len) := by
  intro f
  induction f with
  | zero => intro a b h _; simp [Stack.collectAux] at h
  | succ f ih =>
    intro a b h ha8
    rw [collectAux_succ] at h
    cases hx : (s.read_meta a).next with
    | none =>
      rw [hx] at h
      have hb : b = s.read_meta a := by simpa using h
      rw [hb, read_meta_addr]
      exact ⟨ha8, Or.inl rfl⟩
    | some x =>
      rw [hx] at h
      have hb : b = s.read_meta a ∨ b ∈ s.collectAux f x := by simpa using h
      rcases hb with hb | hb
      · rw [hb, read_meta_addr]
        exact ⟨ha8, Or.inl rfl⟩
      · have hx8 : x % 8 = 0 := by
          rw [read_next_form hx, ceil_eq_ceil8 hch]
          exact ceil8_mod _
        have hxlt := (read_meta_next_some hx).2
        have h' := ih hb hx8
        refine ⟨h'.1, Or.inr ?_⟩
        rcases h'.2 with h'' | h''
        · omega
        · exact h''

theorem find_free_found {cap : Nat} {s : Stack} {f n a : Nat} {m : Meta}
    (hI : Inv cap s) (h : s.find_free f n a = some m) (ha8 : a % 8 = 0)
    (halt : a < cap) :
    m.addr % 8 = 0 ∧ m.addr < cap ∧ m = s.read_meta m.addr ∧ m.free = true ∧
      n ≤ m.size := by
  have h1 := find_free_mem h
  have h2 := collectAux_mem h1.1
  have h3 := collectAux_addr hI.chunk h1.1 ha8
  refine ⟨h3.1, ?_, h2.2, h1.2.1, h1.2.2⟩
  rcases h3.2 with h' | h'
  · omega
  · rw [hI.len_eq] at h'
    exact h'

/-- One-step unfolding of `allocate` with the intermediate lets named,
used to destructure successful allocations. -/
theorem allocate_eq (s : Stack) (n : Nat) :
    s.allocate n =
      match s.find_free (s.len + 1) n 0 with
      | none => (.error "Not enough room in stack", s)
      | some fm =>
        if s.chunk_size ≤ limitOf s fm - nextAddr s fm n then
          (.ok (allocSplit s fm n),
            (s.write_meta (splitBlock s fm n)).write_meta (allocSplit s fm n))
        else (.ok (allocPlain fm n), s.write_meta (allocPlain fm n)) := rfl

theorem allocate_shape {s : Stack} {n : Nat} {m : Meta} {s' : Stack}
    (h : s.allocate n = (.ok m, s')) :
    ∃ fm, s.find_free (s.len + 1) n 0 = some fm ∧
      ((s.chunk_size ≤ limitOf s fm - nextAddr s fm n ∧ m = allocSplit s fm n ∧
        s' = (s.write_meta (splitBlock s fm n)).write_meta (allocSplit s fm n)) ∨
      (¬ s.chunk_size ≤ limitOf s fm - nextAddr s fm n ∧ m = allocPlain fm n ∧
        s' = s.write_meta (allocPlain fm n))) := by
  rw [allocate_eq] at h
  cases hf : s.find_free (s.len + 1) n 0 with
  | none =>
    rw [hf] at h
    have h1 : (Except.error "Not enough room in stack" : Except String Meta) = .ok m :=
      congrArg Prod.fst h
    exact Except.noConfusion h1
  | some fm =>
    rw [hf] at h
    have h' : (if s.chunk_size ≤ limitOf s fm - nextAddr s fm n then
          (Except.ok (allocSplit s fm n),
            (s.write_meta (splitBlock s fm n)).write_meta (allocSplit s fm n))
        else (Except.ok (allocPlain fm n), s.write_meta (allocPlain fm n))) =
        ((Except.ok m : Except String Meta), s') := h
    refine ⟨fm, rfl, ?_⟩
    by_cases hsp : s.chunk_size ≤ limitOf s fm - nextAddr s fm n
    · rw [if_pos hsp] at h'
      have h1 := congrArg Prod.fst h'
      have h2 := congrArg Prod.snd h'
      simp only [] at h1 h2
      cases h1
      exact Or.inl ⟨hsp, rfl, h2.symm⟩
    · rw [if_neg hsp] at h'
      have h1 := congrArg Prod.fst h'
      have h2 := congrArg Prod.snd h'
      simp only [] at h1 h2
      cases h1
      exact Or.inr ⟨hsp, rfl, h2.symm⟩

theorem found_facts {cap : Nat} {s : Stack} {n : Nat} {fm : Meta} (hI : Inv cap s)
    (hf : s.find_free (s.len + 1) n 0 = some fm) (hpos : 0 < cap) :
    FoundOK cap s n fm := by
  obtain ⟨h8, hlt, heq, hfree, hn⟩ := find_free_found hI hf (by norm_num) hpos
  have hq1 : fm.size = (s.read_meta fm.addr).size := congrArg Meta.size heq
  have hq2 : fm.size = s.stack fm.addr / 2 := by rw [hq1, read_meta_size]
  have hby := hI.bytes fm.addr
  have hbnd := hI.bound fm.addr h8 hlt
  rw [← hq1] at hbnd
  refine ⟨h8, hlt, hfree, hn, by omega, hbnd, ?_, ?_, ?_⟩
  · intro p hp
    have hp' : (s.read_meta fm.addr).prev = some p := by
      rw [← congrArg Meta.prev heq]; exact hp
    exact ⟨read_prev_lt hp', hI.prevAl fm.addr h8 hlt p hp'⟩
  · intro x hx
    have hx' : (s.read_meta fm.addr).next = some x := by
      rw [← congrArg Meta.next heq]; exact hx
    have h1 := read_next_form hx'
    rw [ceil_eq_ceil8 hI.chunk, ← hq1] at h1
    have h2 := read_meta_next_some hx'
    rw [hI.len_eq] at h2
    exact ⟨h1, h2.2, by rw [h1]; exact ceil8_mod _⟩
  · intro hxn
    have hx' : (s.read_meta fm.addr).next = none := by
      rw [← congrArg Meta.next heq]; exact hxn
    rw [read_meta_next] at hx'
    by_cases hc : fm.addr < s.ceil (fm.addr + META_SIZE + s.stack fm.addr / 2) ∧
        s.ceil (fm.addr + META_SIZE + s.stack fm.addr / 2) < s.len
    · rw [if_pos hc] at hx'
      exact absurd hx' (by simp)
    · have hA : fm.addr < s.ceil (fm.addr + META_SIZE + s.stack fm.addr / 2) := by
        rw [ceil_eq_ceil8 hI.chunk]
        have h1 := le_ceil8 (fm.addr + META_SIZE + s.stack fm.addr / 2)
        unfold META_SIZE at h1 ⊢
        omega
      have hB : ¬ s.ceil (fm.addr + META_SIZE + s.stack fm.addr / 2) < s.len :=
        fun hB => hc ⟨hA, hB⟩
      rw [ceil_eq_ceil8 hI.chunk, hI.len_eq, ← hq2] at hB
      omega

theorem na_eq {s : Stack} (hch : s.chunk_size = 8) (fm : Meta) (n : Nat) :
    nextAddr s fm n = ceil8 (fm.addr + META_SIZE + n) := by
  unfold nextAddr
  exact ceil_eq_ceil8 hch _

theorem limit_facts {cap : Nat} {s : Stack} {n : Nat} {fm : Meta} (hI : Inv cap s)
    (hF : FoundOK cap s n fm) :
    nextAddr s fm n ≤ limitOf s fm ∧ limitOf s fm ≤ cap ∧ limitOf s fm % 8 = 0 := by
  have hna := na_eq hI.chunk fm n
  cases hx : fm.next with
  | none =>
    have hl : limitOf s fm = cap := by
      unfold limitOf
      rw [hx, Option.getD_none, hI.len_eq]
    rw [hl, hna]
    have h1 : ceil8 (fm.addr + META_SIZE + n) ≤ ceil8 (fm.addr + META_SIZE + fm.size) :=
      ceil8_mono (by have := hF.nle; omega)
    have h2 : ceil8 (fm.addr + META_SIZE + fm.size) ≤ ceil8 cap := ceil8_mono hF.bnd
    rw [ceil8_of_mod hI.cap8] at h2
    exact ⟨by omega, Nat.le_refl cap, hI.cap8⟩
  | some x =>
    have hl : limitOf s fm = x := by
      unfold limitOf
      rw [hx, Option.getD_some]
    obtain ⟨hxe, hxlt, hx8⟩ := hF.nx x hx
    refine ⟨?_, ?_, ?_⟩
    · rw [hl, hna, hxe]
      exact ceil8_mono (by have := hF.nle; omega)
    · rw [hl]
      omega
    · rw [hl]
      exact hx8

theorem snapOK_allocate {cap : Nat} {s : Stack} {n : Nat} {m : Meta} {s' : Stack}
    (hI : Inv cap s) (h : s.allocate n = (.ok m, s')) (hpos : 0 < cap) :
    SnapOK cap m := by
  obtain ⟨fm, hf, hcase⟩ := allocate_shape h
  have hF := found_facts hI hf hpos
  have hna := na_eq hI.chunk fm n
  have hlim := limit_facts hI hF
  have hbnd : fm.addr + META_SIZE + n ≤ cap := by have := hF.nle; have := hF.bnd; omega
  rcases hcase with ⟨hsp, hm, _⟩ | ⟨hsp, hm, _⟩
  · rw [hI.chunk] at hsp
    subst hm
    refine ⟨hF.al, hbnd, ?_, ?_⟩
    · intro p hp
      exact hF.pv p hp
    · intro x hx
      have hx' : x = nextAddr s fm n := by
        have : (allocSplit s fm n).next = some (nextAddr s fm n) := rfl
        rw [this] at hx
        cases hx
        rfl
      subst hx'
      refine ⟨by rw [hna]; exact ceil8_mod _, by omega, ?_⟩
      show ceil8 (fm.addr + META_SIZE + n) ≤ nextAddr s fm n
      rw [hna]
  · subst hm
    refine ⟨hF.al, hbnd, ?_, ?_⟩
    · intro p hp
      exact hF.pv p hp
    · intro x hx
      have hx' : fm.next = some x := hx
      obtain ⟨hxe, hxlt, hx8⟩ := hF.nx x hx'
      refine ⟨hx8, hxlt, ?_⟩
      show ceil8 (fm.addr + META_SIZE + n) ≤ x
      rw [hxe]
      exact ceil8_mono (by have := hF.nle; omega)

theorem inv_allocate {cap : Nat} {s : Stack} {n : Nat} {m : Meta} {s' : Stack}
    (hI : Inv cap s) (h : s.allocate n = (.ok m, s')) (hpos : 0 < cap) :
    Inv cap s' := by
  obtain ⟨fm, hf, hcase⟩ := allocate_shape h
  have hF := found_facts hI hf hpos
  have hna := na_eq hI.chunk fm n
  have hlim := limit_facts hI hF
  rcases hcase with ⟨hsp, hm, hs⟩ | ⟨hsp, hm, hs⟩
  · rw [hI.chunk] at hsp
    subst hs
    have hI1 : Inv cap (s.write_meta (splitBlock s fm n)) := by
      refine inv_write hI ?_ ?_ ?_
      · show nextAddr s fm n % 8 = 0
        rw [hna]; exact ceil8_mod _
      · show nextAddr s fm n + META_SIZE +
          (limitOf s fm - nextAddr s fm n - META_SIZE) % 128 ≤ cap
        have h1 : (limitOf s fm - nextAddr s fm n - META_SIZE) % 128 ≤
            limitOf s fm - nextAddr s fm n - META_SIZE := Nat.mod_le _ _
        unfold META_SIZE at *
        omega
      · intro p hp
        have hp' : p = fm.addr := by
          have : (splitBlock s fm n).prev = some fm.addr := rfl
          rw [this] at hp
          cases hp
          rfl
        rw [hp']
        exact hF.al
    subst hm
    refine inv_write hI1 ?_ ?_ ?_
    · show fm.addr % 8 = 0
      exact hF.al
    · show fm.addr + META_SIZE + n % 128 ≤ cap
      have h1 : n % 128 ≤ n := Nat.mod_le _ _
      have := hF.nle
      have := hF.bnd
      omega
    · intro p hp
      exact (hF.pv p hp).2
  · subst hs
    subst hm
    refine inv_write hI ?_ ?_ ?_
    · show fm.addr % 8 = 0
      exact hF.al
    · show fm.addr + META_SIZE + n % 128 ≤ cap
      have h1 : n % 128 ≤ n := Nat.mod_le _ _
      have := hF.nle
      have := hF.bnd
      omega
    · intro p hp
      exact (hF.pv p hp).2

theorem ceil8_shift {a t : Nat} (h : a % 8 = 0) :
    a + 2 + (ceil8 t - 2) ≤ ceil8 (a + 2 + t) := by
  unfold ceil8
  omega

theorem backMerge_next (s : Stack) (m1 : Meta) : (s.backMerge m1).next = m1.next := by
  unfold Stack.backMerge
  cases m1.prev with
  | none => rfl
  | some p =>
    by_cases hf : (s.read_meta p).free = true
    · simp [hf]
    · simp [hf]

theorem backMerge_cases (s : Stack) (m1 : Meta) :
    s.backMerge m1 = m1 ∨
      ∃ p, m1.prev = some p ∧ (s.read_meta p).free = true ∧
        s.backMerge m1 = ⟨p, m1.free, m1.size + (m1.addr - p), (s.read_meta p).prev, m1.next⟩ := by
  unfold Stack.backMerge
  cases hp : m1.prev with
  | none => exact Or.inl rfl
  | some p =>
    by_cases hf : (s.read_meta p).free = true
    · refine Or.inr ⟨p, rfl, hf, ?_⟩
      simp [hf, read_meta_addr]
    · refine Or.inl ?_
      simp [hf]

theorem free_none (s : Stack) (m : Meta)
    (hx : (s.backMerge (freeSize s m)).next = none) :
    s.free m = (s.backMerge (freeSize s m), s.write_meta (s.backMerge (freeSize s m))) := by
  unfold Stack.free
  rw [hx]


theorem free_used (s : Stack) (m : Meta) {x : Nat}
    (hx : (s.backMerge (freeSize s m)).next = some x)
    (hf : ¬ (s.read_meta x).free = true) :
    s.free m = (s.backMerge (freeSize s m),
      (s.write_meta (rePrev (s.read_meta x) (s.backMerge (freeSize s m)).addr)).write_meta
        (s.backMerge (freeSize s m))) := by
  unfold Stack.free
  rw [hx]
  show (if (s.read_meta x).free = true then _ else _) = _
  rw [if_neg hf]

theorem free_fwd_none (s : Stack) (m : Meta) {x : Nat}
    (hx : (s.backMerge (freeSize s m)).next = some x)
    (hf : (s.read_meta x).free = true) (hy : (s.read_meta x).next = none) :
    s.free m = (fwdAbsorb (s.backMerge (freeSize s m)) (s.read_meta x),
      s.write_meta (fwdAbsorb (s.backMerge (freeSize s m)) (s.read_meta x))) := by
  unfold Stack.free
  rw [hx]
  show (if (s.read_meta x).free = true then _ else _) = _
  rw [if_pos hf, hy]

theorem free_fwd_some (s : Stack) (m : Meta) {x y : Nat}
    (hx : (s.backMerge (freeSize s m)).next = some x)
    (hf : (s.read_meta x).free = true) (hy : (s.read_meta x).next = some y) :
    s.free m = (fwdAbsorb (s.backMerge (freeSize s m)) (s.read_meta x),
      (s.write_meta (rePrev (s.read_meta y)
          (fwdAbsorb (s.backMerge (freeSize s m)) (s.read_meta x)).addr)).write_meta
        (fwdAbsorb (s.backMerge (freeSize s m)) (s.read_meta x))) := by
  unfold Stack.free
  rw [hx]
  show (if (s.read_meta x).free = true then _ else _) = _
  rw [if_pos hf, hy]

theorem inv_free {cap : Nat} {s : Stack} {m : Meta} (hI : Inv cap s)
    (hm : SnapOK cap m) : Inv cap (s.free m).2 := by
  obtain ⟨h8, hsz, hpv, hnx⟩ := hm
  have hmlt : m.addr < cap := by unfold META_SIZE at hsz; omega
  have hEm1 : (freeSize s m).addr + META_SIZE + (freeSize s m).size ≤
      ceil8 (m.addr + META_SIZE + m.size) := by
    show m.addr + META_SIZE + (s.ceil m.size - META_SIZE) ≤ _
    rw [ceil_eq_ceil8 hI.chunk]
    unfold META_SIZE
    exact ceil8_shift h8
  have hfacts : (s.backMerge (freeSize s m)).addr % 8 = 0 ∧
      (s.backMerge (freeSize s m)).addr + META_SIZE + (s.backMerge (freeSize s m)).size ≤
        ceil8 (m.addr + META_SIZE + m.size) ∧
      (∀ q, (s.backMerge (freeSize s m)).prev = some q → q % 8 = 0) := by
    rcases backMerge_cases s (freeSize s m) with hbm | ⟨p, hp, hpf, hbm⟩
    · rw [hbm]
      refine ⟨h8, hEm1, ?_⟩
      intro q hq
      have hq' : m.prev = some q := hq
      exact (hpv q hq').2
    · have hp' : m.prev = some p := hp
      obtain ⟨hplt, hp8⟩ := hpv p hp'
      rw [hbm]
      refine ⟨hp8, ?_, ?_⟩
      · show p + META_SIZE + ((freeSize s m).size + ((freeSize s m).addr - p)) ≤ _
        have h1 : (freeSize s m).addr = m.addr := rfl
        rw [h1]
        unfold META_SIZE at hEm1 ⊢
        omega
      · intro q hq
        have hq' : (s.read_meta p).prev = some q := hq
        exact hI.prevAl p hp8 (by omega) q hq'
  obtain ⟨hm2a, hm2E, hm2p⟩ := hfacts
  have hm2n : (s.backMerge (freeSize s m)).next = m.next := backMerge_next s _
  have hEcap : ceil8 (m.addr + META_SIZE + m.size) ≤ cap := by
    have h1 := ceil8_mono hsz
    rw [ceil8_of_mod hI.cap8] at h1
    exact h1
  cases hx : m.next with
  | none =>
    rw [free_none s m (by rw [hm2n, hx])]
    refine inv_write hI hm2a ?_ hm2p
    have h1 := Nat.mod_le (s.backMerge (freeSize s m)).size 128
    omega
  | some x =>
    obtain ⟨hx8, hxcap, hxge⟩ := hnx x hx
    have hxE : (s.backMerge (freeSize s m)).addr + META_SIZE +
        (s.backMerge (freeSize s m)).size ≤ x := by omega
    have hIx := hI.bound x hx8 hxcap
    have hm2x : (s.backMerge (freeSize s m)).next = some x := by rw [hm2n, hx]
    by_cases hxf : (s.read_meta x).free = true
    · cases hy : (s.read_meta x).next with
      | none =>
        rw [free_fwd_none s m hm2x hxf hy]
        refine inv_write hI hm2a ?_ ?_
        · show (s.backMerge (freeSize s m)).addr + META_SIZE +
            ((s.backMerge (freeSize s m)).size + META_SIZE + (s.read_meta x).size) % 128 ≤ cap
          have h1 := Nat.mod_le ((s.backMerge (freeSize s m)).size + META_SIZE +
            (s.read_meta x).size) 128
          unfold META_SIZE at *
          omega
        · intro q hq
          exact hm2p q hq
      | some y =>
        have hy8 : y % 8 = 0 := by
          rw [read_next_form hy, ceil_eq_ceil8 hI.chunk]
          exact ceil8_mod _
        have hylt : y < cap := by
          have h1 := (read_meta_next_some hy).2
          rw [hI.len_eq] at h1
          exact h1
        have hIy := hI.bound y hy8 hylt
        rw [free_fwd_some s m hm2x hxf hy]
        have hI1 : Inv cap (s.write_meta (rePrev (s.read_meta y)
            (fwdAbsorb (s.backMerge (freeSize s m)) (s.read_meta x)).addr)) := by
          refine inv_write hI ?_ ?_ ?_
          · show y % 8 = 0
            exact hy8
          · show y + META_SIZE + (s.read_meta y).size % 128 ≤ cap
            have h1 := Nat.mod_le (s.read_meta y).size 128
            omega
          · intro q hq
            have hq' : q = (s.backMerge (freeSize s m)).addr := by
              have h1 : (rePrev (s.read_meta y)
                  (fwdAbsorb (s.backMerge (freeSize s m)) (s.read_meta x)).addr).prev =
                  some (s.backMerge (freeSize s m)).addr := rfl
              rw [h1] at hq
              cases hq
              rfl
            rw [hq']
            exact hm2a
        refine inv_write hI1 hm2a ?_ ?_
        · show (s.backMerge (freeSize s m)).addr + META_SIZE +
            ((s.backMerge (freeSize s m)).size + META_SIZE + (s.read_meta x).size) % 128 ≤ cap
          have h1 := Nat.mod_le ((s.backMerge (freeSize s m)).size + META_SIZE +
            (s.read_meta x).size) 128
          unfold META_SIZE at *
          omega
        · intro q hq
          exact hm2p q hq
    · rw [free_used s m hm2x hxf]
      have hI1 : Inv cap (s.write_meta (rePrev (s.read_meta x)
          (s.backMerge (freeSize s m)).addr)) := by
        refine inv_write hI ?_ ?_ ?_
        · show x % 8 = 0
          exact hx8
        · show x + META_SIZE + (s.read_meta x).size % 128 ≤ cap
          have h1 := Nat.mod_le (s.read_meta x).size 128
          omega
        · intro q hq
          have hq' : q = (s.backMerge (freeSize s m)).addr := by
            have h1 : (rePrev (s.read_meta x) (s.backMerge (freeSize s m)).addr).prev =
                some (s.backMerge (freeSize s m)).addr := rfl
            rw [h1] at hq
            cases hq
            rfl
          rw [hq']
          exact hm2a
      refine inv_write hI1 hm2a ?_ hm2p
      have h1 := Nat.mod_le (s.backMerge (freeSize s m)).size 128
      omega

theorem inv_reachable {cap : Nat} {s : Stack} (hr : Reachable cap s)
    (h8 : cap % 8 = 0) (hpos : 0 < cap) : Inv cap s := by
  induction hr with
  | init => exact inv_new h8 hpos
  | alloc _ hal ih => exact inv_allocate ih hal hpos
  | dealloc _ hsn ih => exact inv_free ih hsn

theorem ceil_congr {s' s : Stack} (h : s'.chunk_size = s.chunk_size) (t : Nat) :
    s'.ceil t = s.ceil t := by
  unfold Stack.ceil
  rw [h]

theorem collectAux_frame {s' s : Stack} {t : Nat}
    (hst : ∀ j, t ≤ j → s'.stack j = s.stack j) (hlen : s'.len = s.len)
    (hch : s'.chunk_size = s.chunk_size) :
    ∀ f a, t ≤ a → s'.collectAux f a = s.collectAux f a := by
  intro f
  induction f with
  | zero => intro a _; rfl
  | succ f ih =>
    intro a hta
    have hrm : s'.read_meta a = s.read_meta a :=
      read_meta_congr (hst a hta) (hst (a + 1) (by omega)) hlen hch
    rw [collectAux_succ, collectAux_succ, hrm]
    cases hx : (s.read_meta a).next with
    | none => rfl
    | some x =>
      have hb := read_meta_next_some hx
      show s.read_meta a :: s'.collectAux f x = s.read_meta a :: s.collectAux f x
      rw [ih x (by omega)]

theorem alloc_split_stack_ne {s : Stack} {fm : Meta} {n j : Nat}
    (h0 : j ≠ fm.addr) (h1 : j ≠ fm.addr + 1) (h2 : j ≠ nextAddr s fm n)
    (h3 : j ≠ nextAddr s fm n + 1) :
    ((s.write_meta (splitBlock s fm n)).write_meta (allocSplit s fm n)).stack j =
      s.stack j :=
  calc ((s.write_meta (splitBlock s fm n)).write_meta (allocSplit s fm n)).stack j
      = (s.write_meta (splitBlock s fm n)).stack j := write_meta_stack_ne h0 h1
    _ = s.stack j := write_meta_stack_ne h2 h3

theorem meta_ext {b c : Meta} (h1 : b.addr = c.addr) (h2 : b.free = c.free)
    (h3 : b.size = c.size) (h4 : b.prev = c.prev) (h5 : b.next = c.next) : b = c := by
  cases b
  cases c
  simp_all

theorem write_meta_stack0A (s : Stack) (m : Meta) (j : Nat) (h : j = m.addr) :
    (s.write_meta m).stack j = (m.size % 256 * 2) % 256 + (if m.free then 1 else 0) := by
  rw [h, write_meta_stack0]

theorem write_meta_stack1A (s : Stack) (m : Meta) (j : Nat) (h : j = m.addr + 1) :
    (s.write_meta m).stack j = m.prev.getD 0 % 256 := by
  rw [h, write_meta_stack1]

theorem alloc_walk_split {cap : Nat} {s s' : Stack} {n : Nat} {fm : Meta}
    (hI : Inv cap s) (h256 : cap ≤ 256) (hF : FoundOK cap s n fm)
    (hsp : 8 ≤ limitOf s fm - nextAddr s fm n)
    (hs' : s' = (s.write_meta (splitBlock s fm n)).write_meta (allocSplit s fm n)) :
    (s'.read_meta (nextAddr s fm n)).free = true ∧
    (s'.read_meta (nextAddr s fm n)).size = limitOf s fm - nextAddr s fm n - META_SIZE ∧
    (s'.read_meta (nextAddr s fm n)).prev = some fm.addr ∧
    ∀ f a, a % 8 = 0 → a < cap → cap - a ≤ f → s.find_free f n a = some fm →
      (s'.collectAux f a).length = (s.collectAux f a).length + 1 ∧
        s'.read_meta (nextAddr s fm n) ∈ s'.collectAux f a := by
  have hln : s'.len = s.len := by rw [hs']; rfl
  have hchk : s'.chunk_size = s.chunk_size := by rw [hs']; rfl
  have hch8 : s'.chunk_size = 8 := by rw [hchk]; exact hI.chunk
  have hstack_ne : ∀ j, j ≠ fm.addr → j ≠ fm.addr + 1 → j ≠ nextAddr s fm n →
      j ≠ nextAddr s fm n + 1 → s'.stack j = s.stack j := by
    intro j h0 h1 h2 h3
    rw [hs']
    exact alloc_split_stack_ne h0 h1 h2 h3
  have hnaF := na_eq hI.chunk fm n
  have hlimF := limit_facts hI hF
  have hna8 : nextAddr s fm n % 8 = 0 := by rw [hnaF]; exact ceil8_mod _
  have hnage : fm.addr + 8 ≤ nextAddr s fm n := by
    have h1 := le_ceil8 (fm.addr + META_SIZE + n)
    have h2 := hF.al
    have h3 := ceil8_mod (fm.addr + META_SIZE + n)
    have hM : META_SIZE = 2 := rfl
    rw [hnaF]
    omega
  have hnlim : nextAddr s fm n + 8 ≤ limitOf s fm := by omega
  have h127 : n ≤ 127 := le_trans hF.nle hF.s127
  have hlimle : limitOf s fm ≤ ceil8 (fm.addr + META_SIZE + fm.size) := by
    cases hx : fm.next with
    | none =>
      have h1 := hF.nxnone hx
      unfold limitOf
      rw [hx, Option.getD_none, hI.len_eq]
      exact h1
    | some x =>
      obtain ⟨he, _, _⟩ := hF.nx x hx
      unfold limitOf
      rw [hx, Option.getD_some]
      omega
  have hsplit126 : limitOf s fm - nextAddr s fm n - META_SIZE ≤ 126 := by
    have h1 := ceil8_lt (fm.addr + META_SIZE + fm.size)
    have h2 := hF.s127
    unfold META_SIZE at *
    omega
  have hq256 : fm.addr < 256 := by have := hF.lt; omega
  have hnacap : nextAddr s fm n < cap := by omega
  have hBstack0 : s'.stack (nextAddr s fm n) =
      (limitOf s fm - nextAddr s fm n - META_SIZE) * 2 + 1 := by
    rw [hs']
    have h1 : ((s.write_meta (splitBlock s fm n)).write_meta (allocSplit s fm n)).stack
        (nextAddr s fm n) = (s.write_meta (splitBlock s fm n)).stack (nextAddr s fm n) :=
      write_meta_stack_ne (by show nextAddr s fm n ≠ fm.addr; omega)
        (by show nextAddr s fm n ≠ fm.addr + 1; omega)
    rw [h1, write_meta_stack0A s (splitBlock s fm n) (nextAddr s fm n) rfl]
    show (limitOf s fm - nextAddr s fm n - META_SIZE) % 256 * 2 % 256 + 1 = _
    omega
  have hBstack1 : s'.stack (nextAddr s fm n + 1) = fm.addr := by
    rw [hs']
    have h1 : ((s.write_meta (splitBlock s fm n)).write_meta (allocSplit s fm n)).stack
        (nextAddr s fm n + 1) =
        (s.write_meta (splitBlock s fm n)).stack (nextAddr s fm n + 1) :=
      write_meta_stack_ne (by show nextAddr s fm n + 1 ≠ fm.addr; omega)
        (by show nextAddr s fm n + 1 ≠ fm.addr + 1; omega)
    rw [h1, write_meta_stack1A s (splitBlock s fm n) (nextAddr s fm n + 1) rfl]
    show fm.addr % 256 = fm.addr
    omega
  have hBfree : (s'.read_meta (nextAddr s fm n)).free = true := by
    rw [read_meta_free, hBstack0]
    exact beq_odd _
  have hBsize : (s'.read_meta (nextAddr s fm n)).size =
      limitOf s fm - nextAddr s fm n - META_SIZE := by
    rw [read_meta_size, hBstack0]
    omega
  have hBprev : (s'.read_meta (nextAddr s fm n)).prev = some fm.addr := by
    rw [read_meta_prev, hBstack1, if_pos (by omega : fm.addr < nextAddr s fm n)]
  have hBdiv : s'.stack (nextAddr s fm n) / 2 =
      limitOf s fm - nextAddr s fm n - META_SIZE := by
    rw [hBstack0]
    omega
  have hBnext : (s'.read_meta (nextAddr s fm n)).next =
      if limitOf s fm < cap then some (limitOf s fm) else none := by
    rw [read_meta_next, hBdiv]
    have harg : nextAddr s fm n + META_SIZE + (limitOf s fm - nextAddr s fm n - META_SIZE) =
        limitOf s fm := by
      unfold META_SIZE at *
      omega
    rw [harg, ceil_eq_ceil8 hch8, ceil8_of_mod hlimF.2.2, hln, hI.len_eq]
    by_cases hc : limitOf s fm < cap
    · rw [if_pos ⟨by omega, hc⟩, if_pos hc]
    · rw [if_neg (fun hcon => hc hcon.2), if_neg hc]
  have hAstack0 : s'.stack fm.addr = n * 2 := by
    rw [hs']
    rw [write_meta_stack0A (s.write_meta (splitBlock s fm n)) (allocSplit s fm n)
      fm.addr rfl]
    show n % 256 * 2 % 256 + 0 = n * 2
    omega
  have hAdiv : s'.stack fm.addr / 2 = n := by
    rw [hAstack0]
    omega
  have hAnext : (s'.read_meta fm.addr).next = some (nextAddr s fm n) := by
    rw [read_meta_next, hAdiv]
    have h1 : s'.ceil (fm.addr + META_SIZE + n) = nextAddr s fm n := by
      rw [ceil_congr hchk]
      rfl
    rw [h1, hln, hI.len_eq, if_pos ⟨by omega, hnacap⟩]
  refine ⟨hBfree, hBsize, hBprev, ?_⟩
  intro f
  induction f with
  | zero => intro a _ _ hfuel _; omega
  | succ f ih =>
    intro a ha8 halt hfuel hff
    rw [find_free_succ] at hff
    by_cases hcnd : (s.read_meta a).free = true ∧ n ≤ (s.read_meta a).size
    · rw [if_pos hcnd] at hff
      have hfm : s.read_meta a = fm := by injection hff
      have haddr : fm.addr = a := by rw [← hfm, read_meta_addr]
      have hAnext' : (s'.read_meta a).next = some (nextAddr s fm n) := by
        rw [← haddr]
        exact hAnext
      have hstep' : s'.collectAux (f + 1) a =
          s'.read_meta a :: s'.collectAux f (nextAddr s fm n) := by
        rw [collectAux_succ, hAnext']
      cases hfmx : fm.next with
      | some x =>
        have hlimx : limitOf s fm = x := by unfold limitOf; rw [hfmx]; rfl
        obtain ⟨hxe, hxlt, hx8⟩ := hF.nx x hfmx
        have hxge : nextAddr s fm n + 8 ≤ x := by omega
        have hold : s.collectAux (f + 1) a = s.read_meta a :: s.collectAux f x := by
          have h2 : (s.read_meta a).next = some x := by rw [hfm]; exact hfmx
          rw [collectAux_succ, h2]
        cases f with
        | zero => omega
        | succ f2 =>
          have hBnext' : (s'.read_meta (nextAddr s fm n)).next = some x := by
            rw [hBnext, hlimx, if_pos hxlt]
          have hstep2 : s'.collectAux (f2 + 1) (nextAddr s fm n) =
              s'.read_meta (nextAddr s fm n) :: s'.collectAux f2 x := by
            rw [collectAux_succ, hBnext']
          have hframe : s'.collectAux f2 x = s.collectAux f2 x := by
            refine @collectAux_frame s' s (nextAddr s fm n + 2) ?_ hln hchk f2 x (by omega)
            intro j hj
            exact hstack_ne j (by omega) (by omega) (by omega) (by omega)
          have hstab : s.collectAux f2 x = s.collectAux (f2 + 1) x := by
            refine collectAux_stable s f2 (f2 + 1) x ?_ ?_
            · rw [hI.len_eq]
              omega
            · rw [hI.len_eq]
              omega
          constructor
          · rw [hstep', hstep2, hframe, hstab, hold]
            simp only [List.length_cons]
          · rw [hstep', hstep2]
            exact List.mem_cons_of_mem _ (List.mem_cons_self _ _)
      | none =>
        have hlimx : limitOf s fm = cap := by
          unfold limitOf
          rw [hfmx, Option.getD_none, hI.len_eq]
        have hold : s.collectAux (f + 1) a = [s.read_meta a] := by
          have h2 : (s.read_meta a).next = none := by rw [hfm]; exact hfmx
          rw [collectAux_succ, h2]
        cases f with
        | zero => omega
        | succ f2 =>
          have hBnext' : (s'.read_meta (nextAddr s fm n)).next = none := by
            rw [hBnext, hlimx, if_neg (lt_irrefl cap)]
          have hstep2 : s'.collectAux (f2 + 1) (nextAddr s fm n) =
              [s'.read_meta (nextAddr s fm n)] := by
            rw [collectAux_succ, hBnext']
          constructor
          · rw [hstep', hstep2, hold]
            rfl
          · rw [hstep', hstep2]
            exact List.mem_cons_of_mem _ (List.mem_cons_self _ _)
    · rw [if_neg hcnd] at hff
      cases hnx : (s.read_meta a).next with
      | none =>
        rw [hnx] at hff
        exact absurd hff (by simp)
      | some x =>
        rw [hnx] at hff
        have hff' : s.find_free f n x = some fm := hff
        have hxb := read_meta_next_some hnx
        have hx8 : x % 8 = 0 := by
          rw [read_next_form hnx, ceil_eq_ceil8 hI.chunk]
          exact ceil8_mod _
        have hxcap : x < cap := by rw [← hI.len_eq]; exact hxb.2
        have hfmge : x ≤ fm.addr := (collectAux_mem (find_free_mem hff').1).1
        have hxge2 : a + 2 ≤ x := by
          have h1 := read_next_form hnx
          rw [ceil_eq_ceil8 hI.chunk] at h1
          have h2 := le_ceil8 (a + META_SIZE + (s.read_meta a).size)
          rw [← h1] at h2
          unfold META_SIZE at h2
          omega
        have hrm : s'.read_meta a = s.read_meta a := by
          refine read_meta_congr ?_ ?_ hln hchk
          · exact hstack_ne a (by omega) (by omega) (by omega) (by omega)
          · exact hstack_ne (a + 1) (by omega) (by omega) (by omega) (by omega)
        have hred1 : s'.collectAux (f + 1) a = s.read_meta a :: s'.collectAux f x := by
          rw [collectAux_succ, hrm, hnx]
        have hred2 : s.collectAux (f + 1) a = s.read_meta a :: s.collectAux f x := by
          rw [collectAux_succ, hnx]
        obtain ⟨ih1, ih2⟩ := ih x hx8 hxcap (by omega) hff'
        constructor
        · rw [hred1, hred2]
          simp only [List.length_cons]
          omega
        · rw [hred1]
          exact List.mem_cons_of_mem _ ih2

theorem alloc_walk_plain {cap : Nat} {s s' : Stack} {n : Nat} {fm : Meta}
    (hI : Inv cap s) (hF : FoundOK cap s n fm)
    (hsp : ¬ 8 ≤ limitOf s fm - nextAddr s fm n)
    (hs' : s' = s.write_meta (allocPlain fm n)) :
    ∀ f a, a % 8 = 0 → a < cap → cap - a ≤ f → s.find_free f n a = some fm →
      (s'.collectAux f a).length = (s.collectAux f a).length := by
  have hln : s'.len = s.len := by rw [hs']; rfl
  have hchk : s'.chunk_size = s.chunk_size := by rw [hs']; rfl
  have hstack_ne : ∀ j, j ≠ fm.addr → j ≠ fm.addr + 1 → s'.stack j = s.stack j := by
    intro j h0 h1
    rw [hs']
    exact write_meta_stack_ne h0 h1
  have hnaF := na_eq hI.chunk fm n
  have hlimF := limit_facts hI hF
  have hna8 : nextAddr s fm n % 8 = 0 := by rw [hnaF]; exact ceil8_mod _
  have hnage : fm.addr + 8 ≤ nextAddr s fm n := by
    have h1 := le_ceil8 (fm.addr + META_SIZE + n)
    have h2 := hF.al
    have h3 := ceil8_mod (fm.addr + META_SIZE + n)
    have hM : META_SIZE = 2 := rfl
    rw [hnaF]
    omega
  have h127 : n ≤ 127 := le_trans hF.nle hF.s127
  have hAstack0 : s'.stack fm.addr = n * 2 := by
    rw [hs']
    rw [write_meta_stack0A s (allocPlain fm n) fm.addr rfl]
    show n % 256 * 2 % 256 + 0 = n * 2
    omega
  have hAdiv : s'.stack fm.addr / 2 = n := by
    rw [hAstack0]
    omega
  have hAnext : (s'.read_meta fm.addr).next = fm.next := by
    rw [read_meta_next, hAdiv]
    have h1 : s'.ceil (fm.addr + META_SIZE + n) = nextAddr s fm n := by
      rw [ceil_congr hchk]
      rfl
    rw [h1, hln, hI.len_eq]
    cases hfmx : fm.next with
    | some x =>
      obtain ⟨hxe, hxlt, hx8⟩ := hF.nx x hfmx
      have hlimx : limitOf s fm = x := by unfold limitOf; rw [hfmx]; rfl
      have hnax : nextAddr s fm n = x := by omega
      rw [if_pos ⟨by omega, by omega⟩, hnax]
    | none =>
      have hlimx : limitOf s fm = cap := by
        unfold limitOf
        rw [hfmx, Option.getD_none, hI.len_eq]
      have hnax : nextAddr s fm n = cap := by omega
      rw [if_neg]
      intro hcon
      omega
  intro f
  induction f with
  | zero => intro a _ _ hfuel _; omega
  | succ f ih =>
    intro a ha8 halt hfuel hff
    rw [find_free_succ] at hff
    by_cases hcnd : (s.read_meta a).free = true ∧ n ≤ (s.read_meta a).size
    · rw [if_pos hcnd] at hff
      have hfm : s.read_meta a = fm := by injection hff
      have haddr : fm.addr = a := by rw [← hfm, read_meta_addr]
      have hAnext' : (s'.read_meta a).next = fm.next := by
        rw [← haddr]
        exact hAnext
      cases hfmx : fm.next with
      | some x =>
        obtain ⟨hxe, hxlt, hx8⟩ := hF.nx x hfmx
        have hxge : a + 2 ≤ x := by
          have h1 := le_ceil8 (fm.addr + META_SIZE + fm.size)
          have hM : META_SIZE = 2 := rfl
          omega
        have hred1 : s'.collectAux (f + 1) a = s'.read_meta a :: s'.collectAux f x := by
          rw [collectAux_succ, hAnext', hfmx]
        have hred2 : s.collectAux (f + 1) a = s.read_meta a :: s.collectAux f x := by
          have h2 : (s.read_meta a).next = some x := by rw [hfm]; exact hfmx
          rw [collectAux_succ, h2]
        have hframe : s'.collectAux f x = s.collectAux f x := by
          refine @collectAux_frame s' s (a + 2) ?_ hln hchk f x (by omega)
          intro j hj
          exact hstack_ne j (by omega) (by omega)
        rw [hred1, hred2, hframe]
        simp only [List.length_cons]
      | none =>
        have hred1 : s'.collectAux (f + 1) a = [s'.read_meta a] := by
          rw [collectAux_succ, hAnext', hfmx]
        have hred2 : s.collectAux (f + 1) a = [s.read_meta a] := by
          have h2 : (s.read_meta a).next = none := by rw [hfm]; exact hfmx
          rw [collectAux_succ, h2]
        rw [hred1, hred2]
        rfl
    · rw [if_neg hcnd] at hff
      cases hnx : (s.read_meta a).next with
      | none =>
        rw [hnx] at hff
        exact absurd hff (by simp)
      | some x =>
        rw [hnx] at hff
        have hff' : s.find_free f n x = some fm := hff
        have hxb := read_meta_next_some hnx
        have hx8 : x % 8 = 0 := by
          rw [read_next_form hnx, ceil_eq_ceil8 hI.chunk]
          exact ceil8_mod _
        have hxcap : x < cap := by rw [← hI.len_eq]; exact hxb.2
        have hfmge : x ≤ fm.addr := (collectAux_mem (find_free_mem hff').1).1
        have hxge2 : a + 2 ≤ x := by
          have h1 := read_next_form hnx
          rw [ceil_eq_ceil8 hI.chunk] at h1
          have h2 := le_ceil8 (a + META_SIZE + (s.read_meta a).size)
          rw [← h1] at h2
          have hM : META_SIZE = 2 := rfl
          omega
        have hrm : s'.read_meta a = s.read_meta a := by
          refine read_meta_congr ?_ ?_ hln hchk
          · exact hstack_ne a (by omega) (by omega)
          · exact hstack_ne (a + 1) (by omega) (by omega)
        have hred1 : s'.collectAux (f + 1) a = s.read_meta a :: s'.collectAux f x := by
          rw [collectAux_succ, hrm, hnx]
        have hred2 : s.collectAux (f + 1) a = s.read_meta a :: s.collectAux f x := by
          rw [collectAux_succ, hnx]
        have ihx := ih x hx8 hxcap (by omega) hff'
        rw [hred1, hred2]
        simp only [List.length_cons]
        omega

theorem collect_cover {cap : Nat} {s : Stack} (hI : Inv cap s) :
    ∀ f a, a % 8 = 0 → a < cap → cap - a ≤ f →
      (s.collectAux f a).head?.map Meta.addr = some a ∧
      chainLinked (s.collectAux f a) = true ∧
      lastEnd s (s.collectAux f a) = cap := by
  intro f
  induction f with
  | zero => intro a _ hlt hfuel; omega
  | succ f ih =>
    intro a ha8 halt hfuel
    have hbnd := hI.bound a ha8 halt
    rw [read_meta_size] at hbnd
    set next0 := s.ceil (a + META_SIZE + s.stack a / 2) with hnext0
    have hn8 : next0 % 8 = 0 := by
      rw [hnext0, ceil_eq_ceil8 hI.chunk]
      exact ceil8_mod _
    have hngt : a + META_SIZE + s.stack a / 2 ≤ next0 := by
      rw [hnext0, ceil_eq_ceil8 hI.chunk]
      exact le_ceil8 _
    have hncap : next0 ≤ cap := by
      rw [hnext0, ceil_eq_ceil8 hI.chunk]
      have h1 := ceil8_mono hbnd
      rw [ceil8_of_mod hI.cap8] at h1
      exact h1
    have hagt : a < next0 := by unfold META_SIZE at hngt; omega
    by_cases hcase : next0 < cap
    · have hguard : (s.read_meta a).next = some next0 := by
        rw [read_meta_next, ← hnext0, if_pos ⟨hagt, by rw [hI.len_eq]; exact hcase⟩]
      have hred : s.collectAux (f + 1) a = s.read_meta a :: s.collectAux f next0 := by
        rw [collectAux_succ, hguard]
      have ihx := ih next0 hn8 hcase (by omega)
      cases htail : s.collectAux f next0 with
      | nil =>
        rw [htail] at ihx
        simp at ihx
      | cons c r =>
        rw [htail] at ihx
        rw [hred, htail]
        have hcaddr : c.addr = next0 := by simpa using ihx.1
        refine ⟨by simp [read_meta_addr], ?_, ?_⟩
        · show (pairOKb (s.read_meta a) c && chainLinked (c :: r)) = true
          have hp : pairOKb (s.read_meta a) c = true := by
            unfold pairOKb
            rw [hguard, hcaddr, read_meta_addr, read_meta_size]
            simp only [beq_self_eq_true, Bool.true_and]
            rw [Nat.ble_eq]
            exact hngt
          rw [hp, ihx.2.1]
          rfl
        · show lastEnd s (c :: r) = cap
          exact ihx.2.2
    · have hneq : next0 = cap := by omega
      have hguard : (s.read_meta a).next = none := by
        rw [read_meta_next, ← hnext0, if_neg]
        rw [hI.len_eq]
        omega
      have hred : s.collectAux (f + 1) a = [s.read_meta a] := by
        rw [collectAux_succ, hguard]
      rw [hred]
      refine ⟨by simp [read_meta_addr], ?_, ?_⟩
      · show ((s.read_meta a).next == none) = true
        rw [hguard]
        rfl
      · show s.ceil ((s.read_meta a).addr + META_SIZE + (s.read_meta a).size) = cap
        rw [read_meta_addr, read_meta_size, ← hnext0]
        exact hneq

/-- C3 (amended): for every capacity that is a positive multiple of the
chunk size 8 and every reachable state, the enumerated chain starts at
address 0, each block's derived next equals the successor's address with
non-overlapping payloads, and the last block's chunk-aligned region ends
exactly at the capacity. -/
theorem claim_C3_coverage (cap : Nat) (s : Stack) (h8 : cap % 8 = 0) (hpos : 0 < cap)
    (hr : Reachable cap s) : coverage cap s := by
  have hI := inv_reachable hr h8 hpos
  have h := collect_cover hI (s.len + 1) 0 (by norm_num) hpos (by rw [hI.len_eq]; omega)
  exact ⟨h.1, h.2.1, h.2.2⟩

/-- Witness for the amended C3 at the concrete reachable state
`new 64` after an `allocate(12)`. -/
theorem claim_C3_witness :
    coverage 64 ((Stack.new 64).allocate 12).2 :=
  claim_C3_coverage 64 ((Stack.new 64).allocate 12).2 (by norm_num) (by norm_num)
    (@Reachable.alloc 64 (Stack.new 64) 12 ⟨0, false, 12, none, some 16⟩
      ((Stack.new 64).allocate 12).2 (.init 64) (by rfl))

/-- C8 (amended): for every capacity between `META_SIZE` and 129 (so that
`capacity - 2` fits the 7-bit size field), `new` produces a buffer that is
zero except for the header and whose chain is exactly one free block at
address 0 of size `capacity - META_SIZE` with no predecessor and no
successor. -/
theorem claim_C8_new (cap : Nat) (h2 : META_SIZE ≤ cap) (h129 : cap ≤ 129) :
    (∀ i, META_SIZE ≤ i → (Stack.new cap).stack i = 0) ∧
    (Stack.new cap).collect = [⟨0, true, cap - META_SIZE, none, none⟩] := by
  unfold META_SIZE at h2
  have hb0 : (Stack.new cap).stack 0 = (cap - META_SIZE) * 2 + 1 := by
    show (Stack.write_meta _ _).stack 0 = _
    rw [show (0 : Nat) = (⟨0, true, cap - META_SIZE, none, none⟩ : Meta).addr from rfl,
      write_meta_stack0]
    show (cap - META_SIZE) % 256 * 2 % 256 + 1 = _
    unfold META_SIZE
    omega
  have hb1 : (Stack.new cap).stack 1 = 0 := by
    show (Stack.write_meta _ _).stack (0 + 1) = 0
    rw [show (0 : Nat) + 1 = (⟨0, true, cap - META_SIZE, none, none⟩ : Meta).addr + 1 from rfl,
      write_meta_stack1]
    rfl
  constructor
  · intro i hi
    unfold META_SIZE at hi
    show upd (upd (fun _ => 0) 0 _) (0 + 1) _ i = 0
    unfold upd
    rw [if_neg (by omega : ¬ i = 0 + 1), if_neg (by omega : ¬ i = 0)]
  · have hlen : (Stack.new cap).len = cap := rfl
    have hch : (Stack.new cap).chunk_size = 8 := rfl
    have hsz : ((cap - META_SIZE) * 2 + 1) / 2 = cap - META_SIZE := by omega
    have hread : (Stack.new cap).read_meta 0 = ⟨0, true, cap - META_SIZE, none, none⟩ := by
      refine meta_ext (read_meta_addr _ _) ?_ ?_ ?_ ?_
      · rw [read_meta_free, hb0]
        exact beq_odd _
      · rw [read_meta_size, hb0, hsz]
      · rw [read_meta_prev, hb1]
        rw [if_neg (by omega : ¬ (0 : Nat) < 0)]
      · rw [read_meta_next, hb0, hsz]
        have harg : (0 : Nat) + META_SIZE + (cap - META_SIZE) = cap := by
          unfold META_SIZE
          omega
        rw [harg, ceil_eq_ceil8 hch, hlen]
        have hng : ¬((0 : Nat) < ceil8 cap ∧ ceil8 cap < cap) := by
          intro hcon
          have := le_ceil8 cap
          omega
        rw [if_neg hng]
    show (Stack.new cap).collectAux ((Stack.new cap).len + 1) 0 = _
    rw [collectAux_succ, hread]

/-- Witness for the amended C8 at capacity 64. -/
theorem claim_C8_witness :
    (∀ i, META_SIZE ≤ i → (Stack.new 64).stack i = 0) ∧
    (Stack.new 64).collect = [⟨0, true, 64 - META_SIZE, none, none⟩] :=
  claim_C8_new 64 (by decide) (by norm_num)

/-- C1: the 64-byte / chunk-8 scenario.  The initial chain is one free
block at 0 of size 62; `allocate(12)` yields the used block `(0, 12)` and
a free block `(16, 46)`; `allocate(6)` yields the used block `(16, 6)` and
a free block `(24, 38)`; freeing the block at 0 gives a free block
`(0, 14)` with no merge; freeing the block at 16 coalesces backward and
forward into a single free block at 0 of size 62. -/
theorem claim_C1_scenario :
    d0.collect = [⟨0, true, 62, none, none⟩] ∧
    dA.1 = .ok ⟨0, false, 12, none, some 16⟩ ∧
    dA.2.collect = [⟨0, false, 12, none, some 16⟩, ⟨16, true, 46, some 0, none⟩] ∧
    dB.1 = .ok ⟨16, false, 6, some 0, some 24⟩ ∧
    dB.2.collect = [⟨0, false, 12, none, some 16⟩, ⟨16, false, 6, some 0, some 24⟩,
      ⟨24, true, 38, some 16, none⟩] ∧
    dFa.1.addr = 0 ∧ dFa.1.free = true ∧ dFa.1.size = 14 ∧
    dFa.2.collect = [⟨0, true, 14, none, some 16⟩, ⟨16, false, 6, some 0, some 24⟩,
      ⟨24, true, 38, some 16, none⟩] ∧
    dFb.1.addr = 0 ∧ dFb.1.free = true ∧ dFb.1.size = 62 ∧
    dFb.2.collect = [⟨0, true, 62, none, none⟩] := by
  decide

/-- C2 fails on the code: after three 6-byte allocations `x, a, b` and
frees in order `x, a, b` — every `free` argument being exactly a block
`allocate` returned, never freed before and not overlapped by any other
free — the final `free` returns with the chain `[(0, free, 14),
(16, free, 46)]`: two consecutive blocks both free.  (Freeing `a` merges
it into address 0, but `b`'s snapshot `prev` still points at the stale
header at address 8, which reads as used, so backward coalescing is
skipped.) -/
theorem claim_C2_bug :
    eX.1 = .ok ⟨0, false, 6, none, some 8⟩ ∧
    eA.1 = .ok ⟨8, false, 6, some 0, some 16⟩ ∧
    eB.1 = .ok ⟨16, false, 6, some 8, some 24⟩ ∧
    eFb.2.collect = [⟨0, true, 14, none, some 16⟩, ⟨16, true, 46, some 8, none⟩] ∧
    eFb.2.collect.map Meta.free = [true, true] := by
  decide

/-- C4 fails on the code: on a fresh 64-byte arena, `allocate(8)` succeeds
and freeing the returned block immediately leaves the chain
`[(0, free, 54), (56, used, 0)]` instead of restoring `[(0, free, 62)]`
(`free` normalises the size to `ceil(8) - 2 = 6` instead of the block's
actual chunk-aligned footprint `ceil(8 + 2) - 2 = 14`, so the merged block
falls 8 bytes short of the arena end). -/
theorem claim_C4_bug :
    (Stack.new 64).collect = [⟨0, true, 62, none, none⟩] ∧
    fA.1 = .ok ⟨0, false, 8, none, some 16⟩ ∧
    fF.2.collect = [⟨0, true, 54, none, some 56⟩, ⟨56, false, 0, some 0, none⟩] ∧
    fF.2.collect.map (fun b => (b.addr, b.free)) ≠
      (Stack.new 64).collect.map (fun b => (b.addr, b.free)) := by
  decide

/-- C3 as stated is false: `Stack.new 63` is reachable (zero operations
after construction) and its single block's chunk-aligned region ends at
`ceil(0 + 2 + 61) = 64 ≠ 63`, so the chain does not cover exactly
`[0, 63)`. -/
theorem claim_C3_counterexample :
    Reachable 63 (Stack.new 63) ∧
    (Stack.new 63).collect = [⟨0, true, 61, none, none⟩] ∧
    (Stack.new 63).ceil (0 + META_SIZE + 61) = 64 ∧
    ¬ coverage 63 (Stack.new 63) :=
  ⟨.init 63, by decide, by decide, by decide⟩

/-- C5 as stated is false: on the reachable state `Stack.new 62`,
`allocate(54)` succeeds, the leftover `62 - ceil(0 + 2 + 54) = 6` is less
than one chunk, yet the enumerated chain grows from 1 block to 2 (the
used block's derived next lands at 56 inside the arena, exposing a
phantom zero block). -/
theorem claim_C5_counterexample :
    Reachable 62 (Stack.new 62) ∧
    ((Stack.new 62).allocate 54).1 = .ok ⟨0, false, 54, none, none⟩ ∧
    (Stack.new 62).ceil (0 + META_SIZE + 54) = 56 ∧
    62 - 56 < (Stack.new 62).chunk_size ∧
    (Stack.new 62).collect.length = 1 ∧
    ((Stack.new 62).allocate 54).2.collect.length = 2 :=
  ⟨.init 62, by decide, by decide, by decide, by decide, by decide⟩

/-- C8 as stated is false: for capacity 130 (at least one metadata unit),
`size - META_SIZE = 128` overflows the 7-bit size field, the initial
block decodes with size `128 % 128 = 0`, and the enumerated chain has 17
blocks instead of the claimed single free block of size 128. -/
theorem claim_C8_counterexample :
    2 ≤ 130 ∧ (Stack.new 130).collect.length = 17 ∧
    (Stack.new 130).collect ≠ [⟨0, true, 130 - META_SIZE, none, none⟩] := by
  decide

/-- C9: writing block metadata and decoding it back at the same address
preserves the free flag, yields `size % 128` for the size (7-bit field),
stores `prev % 256` in the predecessor byte (8-bit field), and the
written fields are reproduced exactly iff `size ≤ 127` resp.
`prev ≤ 255`. -/
theorem claim_C9_codec (s : Stack) (m : Meta) :
    ((s.write_meta m).read_meta m.addr).free = m.free ∧
    ((s.write_meta m).read_meta m.addr).size = m.size % 128 ∧
    (s.write_meta m).stack (m.addr + 1) = m.prev.getD 0 % 256 ∧
    (((s.write_meta m).read_meta m.addr).size = m.size ↔ m.size ≤ 127) ∧
    ((s.write_meta m).stack (m.addr + 1) = m.prev.getD 0 ↔ m.prev.getD 0 ≤ 255) := by
  have hb : (m.size % 256 * 2) % 256 = m.size % 128 * 2 := by
    have h2 : (256 : Nat) = 128 * 2 := by norm_num
    rw [h2, Nat.mul_mod_mul_right, Nat.mod_mod_of_dvd _ (by norm_num : (128:Nat) ∣ 256)]
  have h1 : (s.write_meta m).stack (m.addr + 1) = m.prev.getD 0 % 256 := by
    simp [Stack.write_meta, upd]
  cases hf : m.free
  case false =>
    have h0 : (s.write_meta m).stack m.addr = m.size % 128 * 2 := by
      simp [Stack.write_meta, upd, hb, hf]
    have hrs : ((s.write_meta m).read_meta m.addr).size = m.size % 128 := by
      rw [read_meta_size, h0]; omega
    have hrf : ((s.write_meta m).read_meta m.addr).free = false := by
      rw [read_meta_free, h0]
      have h2 : m.size % 128 * 2 % 2 = 0 := by omega
      rw [h2]; rfl
    exact ⟨hrf, hrs, h1, by rw [hrs]; omega, by rw [h1]; omega⟩
  case true =>
    have h0 : (s.write_meta m).stack m.addr = m.size % 128 * 2 + 1 := by
      simp [Stack.write_meta, upd, hb, hf]
    have hrs : ((s.write_meta m).read_meta m.addr).size = m.size % 128 := by
      rw [read_meta_size, h0]; omega
    have hrf : ((s.write_meta m).read_meta m.addr).free = true := by
      rw [read_meta_free, h0]
      have h2 : (m.size % 128 * 2 + 1) % 2 = 1 := by omega
      rw [h2]; rfl
    exact ⟨hrf, hrs, h1, by rw [hrs]; omega, by rw [h1]; omega⟩

/-- C10: for every buffer state and address, a decoded `next`, when
present, lies strictly between the current address and the buffer length
(the `read_meta` guard); consequently the recursive free-block search and
the enumeration loop stabilise at fuel `len - addr + 1` — i.e. both
terminate on every input. -/
theorem claim_C10_termination (s : Stack) (n a f g : Nat) :
    (∀ x, (s.read_meta a).next = some x → a < x ∧ x < s.len) ∧
    (s.len - a < f → s.len - a < g →
      s.find_free f n a = s.find_free g n a ∧ s.collectAux f a = s.collectAux g a) :=
  ⟨fun _ hx => read_meta_next_some hx,
   fun h1 h2 => ⟨find_free_stable s n f g a h1 h2, collectAux_stable s f g a h1 h2⟩⟩

/-- Witness for C10 at concrete inputs: the next-pointer bound at address
0 of `new 130` (whose derived next is 8), and fuel-stability of search and
enumeration on `new 64`. -/
theorem claim_C10_witness :
    (0 < 8 ∧ 8 < (Stack.new 130).len) ∧
    (Stack.new 64).find_free 65 1 0 = (Stack.new 64).find_free 100 1 0 ∧
    (Stack.new 64).collectAux 65 0 = (Stack.new 64).collectAux 100 0 :=
  ⟨(claim_C10_termination (Stack.new 130) 1 0 65 100).1 8 (by decide),
   (claim_C10_termination (Stack.new 64) 1 0 65 100).2 (by decide) (by decide)⟩

/-- C7: on every reachable state, the free-block search from offset 0
(`find_free`, at the fuel `allocate` uses) returns a block of the chain
that is free with sufficient size and whose address is minimal among all
such chain blocks; it returns the error (`none`) exactly when no chain
block is free with sufficient size. -/
theorem claim_C7_first_fit (cap : Nat) (s : Stack) (n : Nat) (_ : Reachable cap s) :
    (∀ m, s.find_free (s.len + 1) n 0 = some m →
      m ∈ s.collect ∧ m.free = true ∧ n ≤ m.size ∧
        ∀ b ∈ s.collect, b.free = true → n ≤ b.size → m.addr ≤ b.addr) ∧
    (s.find_free (s.len + 1) n 0 = none ↔
      ∀ b ∈ s.collect, ¬(b.free = true ∧ n ≤ b.size)) :=
  ⟨fun _ hm => ⟨(find_free_mem hm).1, (find_free_mem hm).2.1, (find_free_mem hm).2.2,
      fun b hb => find_free_min hm b hb⟩,
   find_free_none⟩

/-- Witness for C7: on `new 64` with request 5, the search finds the block
at address 0 and it is address-minimal among sufficient free blocks. -/
theorem claim_C7_witness :
    (⟨0, true, 62, none, none⟩ : Meta) ∈ (Stack.new 64).collect ∧
    (⟨0, true, 62, none, none⟩ : Meta).free = true ∧
    5 ≤ (⟨0, true, 62, none, none⟩ : Meta).size ∧
    ∀ b ∈ (Stack.new 64).collect, b.free = true → 5 ≤ b.size →
      (⟨0, true, 62, none, none⟩ : Meta).addr ≤ b.addr :=
  (claim_C7_first_fit 64 (Stack.new 64) 5 (.init 64)).1 ⟨0, true, 62, none, none⟩
    (by decide)

/-- C6: on every reachable state in which no enumerated block is free with
size at least `n`, `allocate n` returns the out-of-space error and the
buffer comes back unmodified. -/
theorem claim_C6_out_of_space (cap : Nat) (s : Stack) (n : Nat) (_ : Reachable cap s)
    (hno : ∀ b ∈ s.collect, ¬(b.free = true ∧ n ≤ b.size)) :
    s.allocate n = (.error "Not enough room in stack", s) := by
  have h : s.find_free (s.len + 1) n 0 = none := find_free_none.mpr hno
  simp [Stack.allocate, h]

/-- Witness for C6: `new 64` has no free block of size 63, and
`allocate 63` errors leaving the state untouched. -/
theorem claim_C6_witness :
    (Stack.new 64).allocate 63 = (.error "Not enough room in stack", Stack.new 64) :=
  claim_C6_out_of_space 64 (Stack.new 64) 63 (.init 64) (by decide)

/-- C5 (amended): on every state reachable at a capacity that is a
positive multiple of the chunk size 8 and at most 256 (addresses must fit
the 8-bit predecessor byte), a successful `allocate n` that found the free
block `fm` behaves as claimed: if the leftover `limit - next_addr` is
less than one chunk, the enumerated chain length is unchanged; if it is
at least one chunk, the chain grows by exactly one block, and the chain
contains a free block at `next_addr` of size `limit - next_addr -
META_SIZE` whose `prev` is the allocated block's address. -/
theorem claim_C5_split_behavior (cap : Nat) (s : Stack) (n : Nat) (fm m : Meta)
    (s' : Stack) (h8 : cap % 8 = 0) (h256 : cap ≤ 256) (hpos : 0 < cap)
    (hr : Reachable cap s) (hff : s.find_free (s.len + 1) n 0 = some fm)
    (hal : s.allocate n = (.ok m, s')) :
    (limitOf s fm - nextAddr s fm n < s.chunk_size →
      s'.collect.length = s.collect.length) ∧
    (s.chunk_size ≤ limitOf s fm - nextAddr s fm n →
      s'.collect.length = s.collect.length + 1 ∧
      ∃ b ∈ s'.collect, b.addr = nextAddr s fm n ∧ b.free = true ∧
        b.size = limitOf s fm - nextAddr s fm n - META_SIZE ∧ b.prev = some fm.addr) := by
  have hI := inv_reachable hr h8 hpos
  have hF := found_facts hI hff hpos
  obtain ⟨fm2, hff2, hcase⟩ := allocate_shape hal
  rw [hff] at hff2
  have hfm2 : fm = fm2 := by injection hff2
  subst hfm2
  rcases hcase with ⟨hsp, hm, hs⟩ | ⟨hsp, hm, hs⟩
  · rw [hI.chunk] at hsp
    have hlen' : s'.len = s.len := by rw [hs]; rfl
    have hcoll : s'.collect = s'.collectAux (s.len + 1) 0 := by
      unfold Stack.collect
      rw [hlen']
    constructor
    · intro hcon
      rw [hI.chunk] at hcon
      omega
    · intro _
      obtain ⟨hBf, hBs, hBp, hwalk⟩ := alloc_walk_split hI h256 hF hsp hs
      have hw := hwalk (s.len + 1) 0 (by norm_num) hpos (by rw [hI.len_eq]; omega) hff
      rw [hcoll]
      exact ⟨hw.1, ⟨s'.read_meta (nextAddr s fm n), hw.2, read_meta_addr _ _,
        hBf, hBs, hBp⟩⟩
  · have hlen' : s'.len = s.len := by rw [hs]; rfl
    have hcoll : s'.collect = s'.collectAux (s.len + 1) 0 := by
      unfold Stack.collect
      rw [hlen']
    constructor
    · intro _
      rw [hI.chunk] at hsp
      have hw := alloc_walk_plain hI hF hsp hs (s.len + 1) 0 (by norm_num) hpos
        (by rw [hI.len_eq]; omega) hff
      rw [hcoll]
      exact hw
    · intro hcon
      exact absurd hcon hsp

/-- Witness for the amended C5: `allocate 12` on `new 64` splits, the
chain grows from one block to two, and the new free block sits at 16
with size 46 and `prev = some 0`. -/
theorem claim_C5_witness :
    ((Stack.new 64).allocate 12).2.collect.length = (Stack.new 64).collect.length + 1 ∧
    ∃ b ∈ ((Stack.new 64).allocate 12).2.collect,
      b.addr = nextAddr (Stack.new 64) ⟨0, true, 62, none, none⟩ 12 ∧ b.free = true ∧
      b.size = limitOf (Stack.new 64) ⟨0, true, 62, none, none⟩ -
        nextAddr (Stack.new 64) ⟨0, true, 62, none, none⟩ 12 - META_SIZE ∧
      b.prev = some (⟨0, true, 62, none, none⟩ : Meta).addr :=
  (claim_C5_split_behavior 64 (Stack.new 64) 12 ⟨0, true, 62, none, none⟩
    ⟨0, false, 12, none, some 16⟩ ((Stack.new 64).allocate 12).2 (by norm_num)
    (by norm_num) (by norm_num) (.init 64) (by decide) (by rfl)).2 (by decide)

end Malloc
